import Mathlib

/-!
Verification of the picopb protobuf wire-format codec (`src/lib.rs`).

The Rust code is shallowly embedded as follows:
* byte buffers are `List Nat` (each element a byte value `< 256`);
* `u8`/`u64`/`usize` arithmetic is `Nat` arithmetic with an explicit
  `% 2 ^ 8` / `% 2 ^ 64` wherever the Rust machine type can wrap; the model
  fixes a 64-bit target (`usize = u64`), release-mode (wrapping) overflow
  semantics, and a Rust panic (e.g. a failed slice bounds check) is the
  distinguished outcome `ROut.fatal`;
* `i64` values are `Int`s in `[-2^63, 2^63)`; their bit patterns are
  `Nat`s obtained by `% 2 ^ 64` (two's complement);
* `PbReader`/`PbWriter` are the (buffer, position) cursor pairs of the
  source; every mutating Rust method becomes a function from the cursor to
  an (outcome, final cursor) pair, so that the cursor state after a failed
  call is part of the result.
-/

namespace Picopb

/-- `WireType` from src/lib.rs: the four valid 3-bit wire-type tags. -/
inductive WireType where
  | Varint
  | Bit64
  | Bytes
  | Bit32
deriving DecidableEq

/-- The numeric value of a wire type (`WireType as u8` in the source). -/
def WireType.tag : WireType → Nat
  | .Varint => 0
  | .Bit64 => 1
  | .Bytes => 2
  | .Bit32 => 5

/-- `WireType::from_u8`: maps 0, 1, 2, 5 to a wire type, anything else to none. -/
def WireType.from_u8 (b : Nat) : Option WireType :=
  if b = 0 then some .Varint
  else if b = 1 then some .Bit64
  else if b = 2 then some .Bytes
  else if b = 5 then some .Bit32
  else none

/-- The `Error` enum from src/lib.rs. -/
inductive Error where
  | Eof
  | UnexpectedEof
  | InvalidWireType (b : Nat)
  | InvalidFieldNumber (b : Nat)
  | VarintOverflow
  | InvalidUtf8String
  | BufferOverflow
deriving DecidableEq

/-- Outcome of a reader operation: a value, an `Error`, or a Rust panic
(`fatal`, reached only by a failed slice bounds check in `next_bytes`). -/
inductive ROut (α : Type) where
  | ok (a : α) : ROut α
  | err (e : Error) : ROut α
  | fatal : ROut α
deriving DecidableEq

/-- `PbReader`: a borrowed byte buffer and a cursor position. -/
structure PbReader where
  buf : List Nat
  pos : Nat
deriving DecidableEq

/-- `PbReader::has_next`: `pos < buf.len()`. -/
def PbReader.has_next (r : PbReader) : Bool := r.pos < r.buf.length

/-- `PbReader::peek_next_u8`. -/
def PbReader.peek_next_u8 (r : PbReader) : Option Nat :=
  if r.pos < r.buf.length then some (r.buf.getD r.pos 0) else none

/-- `PbReader::next_u8`: reads the byte at `pos` and advances. -/
def PbReader.next_u8 (r : PbReader) : Option Nat × PbReader :=
  if r.pos < r.buf.length then (some (r.buf.getD r.pos 0), { r with pos := r.pos + 1 })
  else (none, r)

/-- `PbReader::is_eof`: `pos == buf.len()`. -/
def PbReader.is_eof (r : PbReader) : Bool := r.pos = r.buf.length

/-- `PbReader::next_key`: reads one byte, splits it as
`(key >> 3, WireType::from_u8(key & 0b111))`. -/
def PbReader.next_key (r : PbReader) : ROut (Nat × WireType) × PbReader :=
  match r.next_u8 with
  | (none, r') => (.err .Eof, r')
  | (some key, r') =>
    match WireType.from_u8 (key &&& 0b111) with
    | some wt => (.ok (key >>> 3, wt), r')
    | none => (.err (.InvalidWireType (key &&& 0b111)), r')

/-- `PbReader::peek_next_key`: same decode as `next_key` without advancing. -/
def PbReader.peek_next_key (r : PbReader) : ROut (Nat × WireType) :=
  match r.peek_next_u8 with
  | none => .err .Eof
  | some key =>
    match WireType.from_u8 (key &&& 0b111) with
    | some wt => .ok (key >>> 3, wt)
    | none => .err (.InvalidWireType (key &&& 0b111))

/-- `PbReader::next_fixed32`: bounds-checks `pos + 4`, then copies 4 bytes. -/
def PbReader.next_fixed32 (r : PbReader) : ROut (List Nat) × PbReader :=
  if r.pos + 4 > r.buf.length then (.err .UnexpectedEof, r)
  else (.ok ((r.buf.drop r.pos).take 4), { r with pos := r.pos + 4 })

/-- `PbReader::next_fixed64`: bounds-checks `pos + 8`, then copies 8 bytes. -/
def PbReader.next_fixed64 (r : PbReader) : ROut (List Nat) × PbReader :=
  if r.pos + 8 > r.buf.length then (.err .UnexpectedEof, r)
  else (.ok ((r.buf.drop r.pos).take 8), { r with pos := r.pos + 8 })

/-- The loop of `PbReader::next_varint`, over the bytes remaining at the
cursor.  Per iteration (matching source order): read a byte (else
`UnexpectedEof`), `checked_shl` of `b & 0x7f` by `bitpos` (none iff
`bitpos ≥ 64`, else a `u64` shift that discards high bits), wrapping
`result += tmp`, terminate when `b & 0x80 == 0`.  Returns the outcome and
the number of bytes consumed. -/
def varintLoop : List Nat → Nat → Nat → ROut Nat × Nat
  | [], _, _ => (.err .UnexpectedEof, 0)
  | b :: rest, result, bitpos =>
    if 64 ≤ bitpos then (.err .VarintOverflow, 1)
    else
      let tmp := ((b &&& 0x7f) <<< bitpos) % 2 ^ 64
      let result' := (result + tmp) % 2 ^ 64
      if b &&& 0x80 = 0 then (.ok result', 1)
      else
        let (out, k) := varintLoop rest result' (bitpos + 7)
        (out, k + 1)

/-- `PbReader::next_varint`. -/
def PbReader.next_varint (r : PbReader) : ROut Nat × PbReader :=
  let (out, k) := varintLoop (r.buf.drop r.pos) 0 0
  (out, { r with pos := r.pos + k })

/-- `PbReader::next_bytes`: decodes a length varint, then checks
`pos + len > buf.len()` with wrapping `usize` addition (release mode) and
slices `buf[pos..pos + len]`.  When the addition wraps, the wrapped end
index lies below `pos`, the `>` check passes it, and the slice indexing
aborts: outcome `fatal`. -/
def PbReader.next_bytes (r : PbReader) : ROut (List Nat) × PbReader :=
  match r.next_varint with
  | (.ok len, r₁) =>
    let stop := (r₁.pos + len) % 2 ^ 64
    if stop > r₁.buf.length then (.err .UnexpectedEof, r₁)
    else if r₁.pos ≤ stop then
      (.ok ((r₁.buf.drop r₁.pos).take len), { r₁ with pos := stop })
    else (.fatal, r₁)
  | (.err e, r₁) => (.err e, r₁)
  | (.fatal, r₁) => (.fatal, r₁)

/-- `varint_to_svarint(n: u64) -> i64` (zigzag decode).  `(n >> 1) as i64`
is value-preserving (`n >> 1 < 2^63`); the `+ 1` and the negation use
wrapping (release-mode) `i64` arithmetic, modelled by `wrapI64`. -/
def wrapI64 (z : Int) : Int := ((z + 2 ^ 63) % 2 ^ 64) - 2 ^ 63

/-- Zigzag decode, from `varint_to_svarint` in src/lib.rs. -/
def varint_to_svarint (n : Nat) : Int :=
  if n &&& 1 = 1 then wrapI64 (-(wrapI64 ((n >>> 1 : Nat) + 1)))
  else ((n >>> 1 : Nat) : Int)

/-- Two's-complement `u64` bit pattern of an `i64` value in `[-2^63, 2^63)`. -/
def i64Bits (n : Int) : Nat := (n % (2 ^ 64 : Int)).toNat

/-- Zigzag encode, from `svarint_to_varint` in src/lib.rs:
`((n << 1) ^ (n >> 63)) as u64` on `i64` bit patterns.  `n << 1` doubles
the bit pattern mod `2^64`; the arithmetic shift `n >> 63` is all-ones for
negative `n` and zero otherwise. -/
def svarint_to_varint (n : Int) : Nat :=
  ((i64Bits n <<< 1) % 2 ^ 64) ^^^ (if n < 0 then 2 ^ 64 - 1 else 0)

/-- `PbReader::next_svarint`. -/
def PbReader.next_svarint (r : PbReader) : ROut Int × PbReader :=
  match r.next_varint with
  | (.ok v, r₁) => (.ok (varint_to_svarint v), r₁)
  | (.err e, r₁) => (.err e, r₁)
  | (.fatal, r₁) => (.fatal, r₁)

/-- `PbWriter`: a borrowed mutable byte buffer and a cursor position. -/
structure PbWriter where
  buf : List Nat
  pos : Nat
deriving DecidableEq

/-- `PbWriter::as_bytes`: the committed prefix `buf[..pos]`. -/
def PbWriter.as_bytes (w : PbWriter) : List Nat := w.buf.take w.pos

/-- `PbWriter::is_eof`: `pos == buf.len()`. -/
def PbWriter.is_eof (w : PbWriter) : Bool := w.pos = w.buf.length

/-- `PbWriter::write_u8`: strict `pos < buf.len()` check, then store and
advance; on failure the cursor is untouched. -/
def PbWriter.write_u8 (w : PbWriter) (val : Nat) : Except Error Unit × PbWriter :=
  if w.pos < w.buf.length then
    (.ok (), { w with buf := w.buf.set w.pos val, pos := w.pos + 1 })
  else (.error .BufferOverflow, w)

/-- The `while value > 0` loop of `PbWriter::write_varint`, plus the
post-loop clearing of the last byte's continuation bit (`last_u8_mut`,
reached only with at least one byte written, so `pos - 1` never
underflows from a reachable call).  On a failed byte write the position
is restored to `fallback` (the buffer keeps any bytes already written,
exactly as the source's `map_err` does). -/
def writeVarintLoop (w : PbWriter) (value fallback : Nat) : Except Error Unit × PbWriter :=
  if _h : value = 0 then
    (.ok (), { w with buf := w.buf.set (w.pos - 1) ((w.buf.getD (w.pos - 1) 0) &&& 0x7f) })
  else
    match w.write_u8 ((value &&& 0x7f) ||| 0x80) with
    | (.ok _, w₁) => writeVarintLoop w₁ (value >>> 7) fallback
    | (.error e, w₁) => (.error e, { w₁ with pos := fallback })
termination_by value
decreasing_by
  simp only [Nat.shiftRight_eq_div_pow]
  exact Nat.div_lt_self (Nat.pos_of_ne_zero _h) (by norm_num)

/-- `PbWriter::write_varint`: value 0 is special-cased to a single zero
byte; otherwise the emit loop runs with the pre-call position as the
rollback point. -/
def PbWriter.write_varint (w : PbWriter) (value : Nat) : Except Error Unit × PbWriter :=
  if value = 0 then w.write_u8 0x00
  else writeVarintLoop w value w.pos

/-- `u8::checked_shl`: none iff the shift amount is `≥ 8`; otherwise the
shift result truncated to 8 bits (high bits are silently discarded). -/
def u8CheckedShl (x shift : Nat) : Option Nat :=
  if 8 ≤ shift then none else some ((x <<< shift) % 2 ^ 8)

/-- `PbWriter::encode_varint_field`: `field_number.checked_shl(3)` plus the
wire-type tag builds the key byte (the `u8` addition cannot wrap: the
shifted value is a multiple of 8 below 256), then key byte and varint are
written. -/
def PbWriter.encode_varint_field (w : PbWriter) (field_number : Nat) (value : Nat) :
    Except Error Unit × PbWriter :=
  match u8CheckedShl field_number 3 with
  | none => (.error (.InvalidFieldNumber field_number), w)
  | some sh =>
    match w.write_u8 (sh + WireType.Varint.tag) with
    | (.ok _, w₁) => w₁.write_varint value
    | (.error e, w₁) => (.error e, w₁)

/-- `PbWriter::encode_svarint_field`: zigzag-encode, then delegate. -/
def PbWriter.encode_svarint_field (w : PbWriter) (field_number : Nat) (value : Int) :
    Except Error Unit × PbWriter :=
  w.encode_varint_field field_number (svarint_to_varint value)

/-- `copy_from_slice` into `buf[i..i + v.len()]`. -/
def setRange (l : List Nat) (i : Nat) (v : List Nat) : List Nat :=
  match v with
  | [] => l
  | a :: rest => setRange (l.set i a) (i + 1) rest

/-- `PbWriter::write_bytes`: the source's strict `pos + val.len() < buf.len()`
bound check (note: strict, so a write ending exactly at the buffer's last
byte is rejected), then the raw copy. -/
def PbWriter.write_bytes (w : PbWriter) (val : List Nat) : Except Error Unit × PbWriter :=
  if w.pos + val.length < w.buf.length then
    (.ok (), { w with buf := setRange w.buf w.pos val, pos := w.pos + val.length })
  else (.error .BufferOverflow, w)

/-- `PbWriter::encode_bytes_field`: key byte, length varint, raw bytes. -/
def PbWriter.encode_bytes_field (w : PbWriter) (field_number : Nat) (value : List Nat) :
    Except Error Unit × PbWriter :=
  match u8CheckedShl field_number 3 with
  | none => (.error (.InvalidFieldNumber field_number), w)
  | some sh =>
    match w.write_u8 (sh + WireType.Bytes.tag) with
    | (.ok _, w₁) =>
      match w₁.write_varint value.length with
      | (.ok _, w₂) => w₂.write_bytes value
      | (.error e, w₂) => (.error e, w₂)
    | (.error e, w₁) => (.error e, w₁)

/-- `PbWriter::encode_string_field`: delegates to `encode_bytes_field` on
the string's UTF-8 bytes (strings are modelled by their byte lists). -/
def PbWriter.encode_string_field (w : PbWriter) (field_number : Nat) (value : List Nat) :
    Except Error Unit × PbWriter :=
  w.encode_bytes_field field_number value

/-- The byte sequence `write_varint` commits for a value: little-endian
base-128 digits, continuation bit on every byte but the last. -/
def varintBytes (v : Nat) : List Nat :=
  if _h : v < 128 then [v]
  else ((v &&& 0x7f) ||| 0x80) :: varintBytes (v >>> 7)
termination_by v
decreasing_by
  simp only [Nat.shiftRight_eq_div_pow]
  exact Nat.div_lt_self (by omega) (by norm_num)

/-! ### Generic bit-arithmetic helpers -/

theorem and127_eq_mod (x : Nat) : x &&& 127 = x % 128 := by
  have h := Nat.and_pow_two_sub_one_eq_mod x 7
  norm_num at h
  exact h

theorem xor_div_two (x y : Nat) : (x ^^^ y) / 2 = x / 2 ^^^ y / 2 := by
  apply Nat.eq_of_testBit_eq
  intro i
  simp only [Nat.testBit_xor, ← Nat.testBit_succ]

theorem or_div_two (x y : Nat) : (x ||| y) / 2 = x / 2 ||| y / 2 := by
  apply Nat.eq_of_testBit_eq
  intro i
  simp only [Nat.testBit_or, ← Nat.testBit_succ]

theorem or_mod_two_of_even {x y : Nat} (hy : y % 2 = 0) : (x ||| y) % 2 = x % 2 := by
  have h := Nat.testBit_or x y 0
  simp only [Nat.testBit_zero] at h
  rw [hy] at h
  rcases Nat.mod_two_eq_zero_or_one x with hx | hx <;>
    rcases Nat.mod_two_eq_zero_or_one (x ||| y) with ho | ho <;>
      rw [hx, ho] at h <;> simp at h <;> omega

theorem or_two_pow_of_lt : ∀ i x : Nat, x < 2 ^ i → x ||| 2 ^ i = x + 2 ^ i := by
  intro i
  induction i with
  | zero =>
    intro x hx
    have hx0 : x = 0 := by omega
    subst hx0; decide
  | succ i ih =>
    intro x hx
    have hp : (2 : Nat) ^ (i + 1) = 2 * 2 ^ i := by rw [Nat.pow_succ]; ring
    have hde : (x ||| 2 ^ (i + 1)) / 2 = x / 2 + 2 ^ i := by
      rw [or_div_two]
      have h1 : (2 : Nat) ^ (i + 1) / 2 = 2 ^ i := by omega
      rw [h1, ih (x / 2) (by omega)]
    have hme : (x ||| 2 ^ (i + 1)) % 2 = x % 2 := or_mod_two_of_even (by omega)
    have hvm := Nat.div_add_mod (x ||| 2 ^ (i + 1)) 2
    omega

theorem or128_eq_add {x : Nat} (h : x < 128) : x ||| 128 = x + 128 := by
  have := or_two_pow_of_lt 7 x (by norm_num; omega)
  norm_num at this
  exact this

theorem xor_two_pow_sub_one : ∀ w x : Nat, x < 2 ^ w → x ^^^ (2 ^ w - 1) = 2 ^ w - 1 - x := by
  intro w
  induction w with
  | zero =>
    intro x hx
    have hx0 : x = 0 := by omega
    subst hx0; decide
  | succ w ih =>
    intro x hx
    have hp : (2 : Nat) ^ (w + 1) = 2 * 2 ^ w := by rw [Nat.pow_succ]; ring
    have hde : (x ^^^ (2 ^ (w + 1) - 1)) / 2 = 2 ^ w - 1 - x / 2 := by
      rw [xor_div_two]
      have h1 : (2 ^ (w + 1) - 1 : Nat) / 2 = 2 ^ w - 1 := by omega
      rw [h1, ih (x / 2) (by omega)]
    have hme : (x ^^^ (2 ^ (w + 1) - 1)) % 2 = (x + (2 ^ (w + 1) - 1)) % 2 :=
      Nat.xor_mod_two_eq
    have hvm := Nat.div_add_mod (x ^^^ (2 ^ (w + 1) - 1)) 2
    omega

theorem and128_of_lt {x : Nat} (h : x < 128) : x &&& 128 = 0 := by
  have h7 : x.testBit 7 = false := Nat.testBit_lt_two_pow (by norm_num; omega)
  have ha := Nat.and_two_pow x 7
  norm_num [h7] at ha
  exact ha

theorem add128_and128 {x : Nat} (h : x < 128) : (x + 128) &&& 128 = 128 := by
  have h7 : (x + 128).testBit 7 = true := by
    simp only [Nat.testBit_to_div_mod, decide_eq_true_eq]
    norm_num
    omega
  have ha := Nat.and_two_pow (x + 128) 7
  norm_num [h7] at ha
  exact ha

/-! ### List surgery helpers -/

theorem take_set_of_le (l : List Nat) (i n a : Nat) (h : n ≤ i) :
    (l.set i a).take n = l.take n := by
  ext j b
  simp only [List.getElem?_take, List.getElem?_set]
  split
  · split
    · omega
    · rfl
  · rfl

theorem drop_set_of_lt (l : List Nat) (i n a : Nat) (h : i < n) :
    (l.set i a).drop n = l.drop n := by
  ext j b
  simp only [List.getElem?_drop, List.getElem?_set]
  split
  · omega
  · rfl

theorem set_eq_sandwich (l : List Nat) (i a : Nat) (h : i < l.length) :
    l.set i a = l.take i ++ a :: l.drop (i + 1) := by
  rw [List.set_eq_take_append_cons_drop, if_pos h]

theorem take_succ_set (l : List Nat) (i a : Nat) (h : i < l.length) :
    (l.set i a).take (i + 1) = l.take i ++ [a] := by
  rw [set_eq_sandwich l i a h, List.take_append_eq_append_take]
  simp [List.length_take, Nat.min_eq_left (Nat.le_of_lt h)]

theorem getD_set_self (l : List Nat) (i a : Nat) (h : i < l.length) :
    (l.set i a).getD i 0 = a := by
  simp [List.getD, List.getElem?_set, h]

/-! ### varintBytes equations and length bound -/

theorem varintBytes_lt {v : Nat} (h : v < 128) : varintBytes v = [v] := by
  rw [varintBytes.eq_def, dif_pos h]

theorem varintBytes_ge {v : Nat} (h : ¬ v < 128) :
    varintBytes v = ((v &&& 0x7f) ||| 0x80) :: varintBytes (v >>> 7) := by
  conv_lhs => rw [varintBytes.eq_def]
  rw [dif_neg h]

theorem varintBytes_length_le : ∀ k : Nat, 1 ≤ k → ∀ v : Nat, v < 2 ^ (7 * k) →
    (varintBytes v).length ≤ k := by
  intro k
  induction k with
  | zero => omega
  | succ k ih =>
    intro _ v hv
    by_cases h : v < 128
    · rw [varintBytes_lt h]
      simp
    · rw [varintBytes_ge h]
      have hk : 1 ≤ k := by
        by_contra hk0
        have : k = 0 := by omega
        subst this
        norm_num at hv
        omega
      have hlt : v >>> 7 < 2 ^ (7 * k) := by
        rw [Nat.shiftRight_eq_div_pow]
        have : (2 : Nat) ^ (7 * (k + 1)) = 2 ^ (7 * k) * 2 ^ 7 := by
          rw [← pow_add]
          ring_nf
        apply Nat.div_lt_of_lt_mul
        norm_num
        omega
      have := ih hk (v >>> 7) hlt
      simp only [List.length_cons]
      omega

/-! ### Decoding the bytes written by the encoder -/

theorem varintLoop_decode (v : Nat) : ∀ (rest : List Nat) (result bitpos : Nat),
    bitpos < 64 → result + v * 2 ^ bitpos < 2 ^ 64 →
    varintLoop (varintBytes v ++ rest) result bitpos =
      (.ok (result + v * 2 ^ bitpos), (varintBytes v).length) := by
  induction v using Nat.strong_induction_on with
  | _ v ih =>
    intro rest result bitpos hbp hlt
    by_cases h : v < 128
    · rw [varintBytes_lt h]
      simp only [List.cons_append, List.nil_append, varintLoop]
      rw [if_neg (by omega)]
      have ha : v &&& 0x7f = v := by
        rw [and127_eq_mod, Nat.mod_eq_of_lt h]
      have hm : v <<< bitpos % 2 ^ 64 = v * 2 ^ bitpos := by
        rw [Nat.shiftLeft_eq, Nat.mod_eq_of_lt (by omega)]
      have hr : (result + v * 2 ^ bitpos) % 2 ^ 64 = result + v * 2 ^ bitpos :=
        Nat.mod_eq_of_lt hlt
      rw [ha, hm, hr, if_pos (and128_of_lt h)]
      rfl
    · have hmod : v % 128 < 128 := Nat.mod_lt v (by norm_num)
      have hd : (v &&& 0x7f) ||| 0x80 = v % 128 + 128 := by
        rw [and127_eq_mod, or128_eq_add hmod]
      rw [varintBytes_ge h]
      simp only [List.cons_append, varintLoop]
      rw [if_neg (by omega)]
      have hp7 : (2 : Nat) ^ (bitpos + 7) = 2 ^ bitpos * 128 := by
        rw [pow_add]
        norm_num
      have hkey : v % 128 * 2 ^ bitpos + v >>> 7 * 2 ^ (bitpos + 7) = v * 2 ^ bitpos := by
        rw [Nat.shiftRight_eq_div_pow, hp7]
        norm_num
        have hsplit : v = 128 * (v / 128) + v % 128 := (Nat.div_add_mod v 128).symm
        conv_rhs => rw [hsplit]
        ring
      have ha : (v % 128 + 128) &&& 0x7f = v % 128 := by
        rw [and127_eq_mod]
        omega
      have hm : (v % 128) <<< bitpos % 2 ^ 64 = v % 128 * 2 ^ bitpos := by
        rw [Nat.shiftLeft_eq]
        apply Nat.mod_eq_of_lt
        have : v % 128 * 2 ^ bitpos ≤ v * 2 ^ bitpos :=
          Nat.mul_le_mul_right _ (Nat.mod_le v 128)
        omega
      have hr : (result + v % 128 * 2 ^ bitpos) % 2 ^ 64 = result + v % 128 * 2 ^ bitpos := by
        apply Nat.mod_eq_of_lt
        have : v % 128 * 2 ^ bitpos ≤ v * 2 ^ bitpos :=
          Nat.mul_le_mul_right _ (Nat.mod_le v 128)
        omega
      have hv' : 1 ≤ v >>> 7 := by
        rw [Nat.shiftRight_eq_div_pow]
        norm_num
        omega
      have hlt' : result + v % 128 * 2 ^ bitpos + v >>> 7 * 2 ^ (bitpos + 7) < 2 ^ 64 := by
        omega
      have hbp' : bitpos + 7 < 64 := by
        have h1 : (2 : Nat) ^ (bitpos + 7) ≤ v >>> 7 * 2 ^ (bitpos + 7) :=
          Nat.le_mul_of_pos_left _ hv'
        have h2 : (2 : Nat) ^ (bitpos + 7) < 2 ^ 64 := by omega
        exact (Nat.pow_lt_pow_iff_right (by norm_num)).mp h2
      have hrec := ih (v >>> 7) (by
        rw [Nat.shiftRight_eq_div_pow]
        exact Nat.div_lt_self (by omega) (by norm_num)) rest
        (result + v % 128 * 2 ^ bitpos) (bitpos + 7) hbp' hlt'
      simp only [hd, ha, hm, hr, List.append_eq]
      rw [if_neg (by rw [add128_and128 hmod]; omega)]
      rw [hrec]
      simp only [List.length_cons]
      have hfin : result + v % 128 * 2 ^ bitpos + v >>> 7 * 2 ^ (bitpos + 7) =
          result + v * 2 ^ bitpos := by omega
      rw [hfin]

/-! ### Writer loop lemmas -/

theorem writeVarintLoop_zero (w : PbWriter) (fb : Nat) :
    writeVarintLoop w 0 fb =
      (.ok (), { w with buf := w.buf.set (w.pos - 1) ((w.buf.getD (w.pos - 1) 0) &&& 0x7f) }) := by
  rw [writeVarintLoop.eq_def]
  rfl

theorem writeVarintLoop_pos (w : PbWriter) {v : Nat} (fb : Nat) (h : ¬ v = 0) :
    writeVarintLoop w v fb =
      match w.write_u8 ((v &&& 0x7f) ||| 0x80) with
      | (.ok _, w₁) => writeVarintLoop w₁ (v >>> 7) fb
      | (.error e, w₁) => (.error e, { w₁ with pos := fb }) := by
  conv_lhs => rw [writeVarintLoop.eq_def]
  rw [dif_neg h]

/-- Success of the emit loop, with enough room: the digits of `varintBytes`
are written at `pos` and the position advances over them. -/
theorem writeVarintLoop_ok (v : Nat) : ∀ (buf : List Nat) (pos fb : Nat), 1 ≤ v →
    pos + (varintBytes v).length ≤ buf.length →
    writeVarintLoop ⟨buf, pos⟩ v fb =
      (.ok (), ⟨buf.take pos ++ varintBytes v ++ buf.drop (pos + (varintBytes v).length),
        pos + (varintBytes v).length⟩) := by
  induction v using Nat.strong_induction_on with
  | _ v ih =>
    intro buf pos fb hv hle
    by_cases h : v < 128
    · rw [varintBytes_lt h] at hle ⊢
      simp only [List.length_singleton] at hle
      have hlt : pos < buf.length := by omega
      have ha : (v &&& 0x7f) ||| 0x80 = v + 128 := by
        rw [and127_eq_mod, Nat.mod_eq_of_lt h, or128_eq_add h]
      have h0 : v >>> 7 = 0 := by
        rw [Nat.shiftRight_eq_div_pow]
        exact Nat.div_eq_of_lt (by norm_num; omega)
      rw [writeVarintLoop_pos _ fb (by omega), ha]
      simp only [PbWriter.write_u8, if_pos hlt]
      rw [h0, writeVarintLoop_zero]
      simp only [Nat.add_sub_cancel]
      rw [getD_set_self buf pos (v + 128) hlt]
      have hb : (v + 128) &&& 0x7f = v := by
        rw [and127_eq_mod]
        omega
      rw [hb, List.set_set, set_eq_sandwich buf pos v hlt]
      simp
    · have hd : varintBytes v = ((v &&& 0x7f) ||| 0x80) :: varintBytes (v >>> 7) :=
        varintBytes_ge h
      have hlen : (varintBytes v).length = (varintBytes (v >>> 7)).length + 1 := by
        rw [hd]
        simp
      have hlt : pos < buf.length := by omega
      have hv' : 1 ≤ v >>> 7 := by
        rw [Nat.shiftRight_eq_div_pow]
        norm_num
        omega
      rw [writeVarintLoop_pos _ fb (by omega)]
      simp only [PbWriter.write_u8, if_pos hlt]
      have ih' := ih (v >>> 7)
        (by
          rw [Nat.shiftRight_eq_div_pow]
          exact Nat.div_lt_self (by omega) (by norm_num))
        (buf.set pos ((v &&& 0x7f) ||| 0x80)) (pos + 1) fb hv'
        (by
          rw [List.length_set]
          omega)
      rw [ih']
      rw [take_succ_set buf pos _ hlt, drop_set_of_lt buf pos _ _ (by omega)]
      rw [hd]
      have hpe : pos + 1 + (varintBytes (v >>> 7)).length = pos + (varintBytes v).length := by
        omega
      rw [hpe]
      rw [hlen]
      simp [List.append_assoc]

/-- Invariant of the emit loop for every outcome: bytes below `fallback`
are untouched, the buffer length is unchanged, a failure is a
`BufferOverflow` with the position restored to `fallback`, and a success
never moves the position below `fallback`. -/
theorem writeVarintLoop_inv (v : Nat) : ∀ (buf : List Nat) (pos fb : Nat),
    fb ≤ pos → (v = 0 → fb < pos) →
    ((writeVarintLoop ⟨buf, pos⟩ v fb).2.buf.take fb = buf.take fb) ∧
    ((writeVarintLoop ⟨buf, pos⟩ v fb).2.buf.length = buf.length) ∧
    (∀ e, (writeVarintLoop ⟨buf, pos⟩ v fb).1 = .error e →
      (writeVarintLoop ⟨buf, pos⟩ v fb).2.pos = fb ∧ e = .BufferOverflow) ∧
    ((writeVarintLoop ⟨buf, pos⟩ v fb).1 = .ok () →
      fb ≤ (writeVarintLoop ⟨buf, pos⟩ v fb).2.pos) := by
  induction v using Nat.strong_induction_on with
  | _ v ih =>
    intro buf pos fb hfb hfb0
    by_cases h : v = 0
    · subst h
      rw [writeVarintLoop_zero]
      have hfb' : fb < pos := hfb0 rfl
      refine ⟨take_set_of_le buf (pos - 1) fb _ (by omega), by simp, ?_, ?_⟩
      · intro e he
        exact absurd he (by simp)
      · intro _
        exact hfb
    · rw [writeVarintLoop_pos _ fb h]
      by_cases hp : pos < buf.length
      · simp only [PbWriter.write_u8, if_pos hp]
        have hrec := ih (v >>> 7)
          (by
            rw [Nat.shiftRight_eq_div_pow]
            exact Nat.div_lt_self (by omega) (by norm_num))
          (buf.set pos ((v &&& 0x7f) ||| 0x80)) (pos + 1) fb (by omega) (by omega)
        refine ⟨?_, ?_, ?_, ?_⟩
        · rw [hrec.1, take_set_of_le buf pos fb _ hfb]
        · rw [hrec.2.1, List.length_set]
        · exact hrec.2.2.1
        · exact hrec.2.2.2
      · have heq : (match PbWriter.write_u8 ⟨buf, pos⟩ ((v &&& 0x7f) ||| 0x80) with
            | (.ok _, w₁) => writeVarintLoop w₁ (v >>> 7) fb
            | (.error e, w₁) => (.error e, { w₁ with pos := fb })) =
            ((.error .BufferOverflow : Except Error Unit), (⟨buf, fb⟩ : PbWriter)) := by
          simp only [PbWriter.write_u8, if_neg hp]
        rw [heq]
        refine ⟨rfl, rfl, ?_, ?_⟩
        · intro e he
          injection he with h1
          exact ⟨rfl, h1.symm⟩
        · intro _
          exact Nat.le_refl fb

/-- `write_varint` characterized on success with enough room (from position
`pos`, writing `varintBytes value`). -/
theorem write_varint_ok (buf : List Nat) (pos value : Nat)
    (hle : pos + (varintBytes value).length ≤ buf.length) :
    PbWriter.write_varint ⟨buf, pos⟩ value =
      (.ok (), ⟨buf.take pos ++ varintBytes value ++
        buf.drop (pos + (varintBytes value).length), pos + (varintBytes value).length⟩) := by
  by_cases h : value = 0
  · subst h
    rw [varintBytes_lt (by norm_num)] at hle ⊢
    simp only [List.length_singleton] at hle
    have hlt : pos < buf.length := by omega
    simp only [PbWriter.write_varint, if_pos rfl, PbWriter.write_u8, if_pos hlt]
    rw [set_eq_sandwich buf pos 0 hlt]
    simp
  · simp only [PbWriter.write_varint, if_neg h]
    exact writeVarintLoop_ok value buf pos pos (by omega) hle

/-- A failing `write_varint` is always a `BufferOverflow`, restores the
position, and leaves the committed prefix `as_bytes` unchanged. -/
theorem write_varint_error (w : PbWriter) (value : Nat) (e : Error)
    (he : (w.write_varint value).1 = .error e) :
    e = .BufferOverflow ∧ (w.write_varint value).2.pos = w.pos ∧
      (w.write_varint value).2.buf.take w.pos = w.buf.take w.pos ∧
      (w.write_varint value).2.buf.length = w.buf.length := by
  obtain ⟨buf, pos⟩ := w
  by_cases h : value = 0
  · subst h
    simp only [PbWriter.write_varint, if_pos rfl, PbWriter.write_u8] at he ⊢
    by_cases hp : pos < buf.length
    · rw [if_pos hp] at he
      exact absurd he (by simp)
    · rw [if_neg hp] at he ⊢
      simp at he
      exact ⟨he.symm, rfl, rfl, rfl⟩
  · simp only [PbWriter.write_varint, if_neg h] at he ⊢
    have hinv := writeVarintLoop_inv value buf pos pos (Nat.le_refl pos) (by omega)
    have herr := hinv.2.2.1 e he
    exact ⟨herr.2, herr.1, hinv.1, hinv.2.1⟩

/-- A successful `write_varint` never moves the position backwards and
leaves bytes below the starting position unchanged. -/
theorem write_varint_mono (w : PbWriter) (value : Nat)
    (hok : (w.write_varint value).1 = .ok ()) :
    w.pos ≤ (w.write_varint value).2.pos ∧
      (w.write_varint value).2.buf.take w.pos = w.buf.take w.pos ∧
      (w.write_varint value).2.buf.length = w.buf.length := by
  obtain ⟨buf, pos⟩ := w
  by_cases h : value = 0
  · simp only [PbWriter.write_varint, if_pos h, PbWriter.write_u8] at hok ⊢
    by_cases hp : pos < buf.length
    · rw [if_pos hp] at hok ⊢
      refine ⟨by simp, take_set_of_le buf pos pos 0 (Nat.le_refl pos), by simp⟩
    · rw [if_neg hp] at hok
      exact absurd hok (by simp)
  · simp only [PbWriter.write_varint, if_neg h] at hok ⊢
    have hinv := writeVarintLoop_inv value buf pos pos (Nat.le_refl pos) (by omega)
    exact ⟨hinv.2.2.2 hok, hinv.1, hinv.2.1⟩

/-! ### Shape lemmas for the varint decode loop -/

theorem varintLoop_nil (res bp : Nat) : varintLoop [] res bp = (.err .UnexpectedEof, 0) := rfl

/-- One step of the loop over a continuation byte (high bit set) below the
shift limit. -/
theorem varintLoop_cont_step (b : Nat) (l : List Nat) (res bp : Nat)
    (hb : ¬ b &&& 0x80 = 0) (hbp : bp < 64) :
    varintLoop (b :: l) res bp =
      ((varintLoop l ((res + ((b &&& 0x7f) <<< bp) % 2 ^ 64) % 2 ^ 64) (bp + 7)).1,
        (varintLoop l ((res + ((b &&& 0x7f) <<< bp) % 2 ^ 64) % 2 ^ 64) (bp + 7)).2 + 1) := by
  simp only [varintLoop, if_neg (by omega : ¬ 64 ≤ bp), if_neg hb]

/-- One step of the loop over a terminating byte (high bit clear) below the
shift limit. -/
theorem varintLoop_last_step (b : Nat) (l : List Nat) (res bp : Nat)
    (hb : b &&& 0x80 = 0) (hbp : bp < 64) :
    varintLoop (b :: l) res bp =
      (.ok ((res + ((b &&& 0x7f) <<< bp) % 2 ^ 64) % 2 ^ 64), 1) := by
  simp only [varintLoop, if_neg (by omega : ¬ 64 ≤ bp), if_pos hb]

/-- At or past the shift limit, the next byte read overflows. -/
theorem varintLoop_overflow_step (b : Nat) (l : List Nat) (res bp : Nat) (hbp : 64 ≤ bp) :
    varintLoop (b :: l) res bp = (.err .VarintOverflow, 1) := by
  simp only [varintLoop, if_pos hbp]

theorem varintLoop_consumed_le : ∀ (l : List Nat) (res bp : Nat),
    (varintLoop l res bp).2 ≤ l.length := by
  intro l
  induction l with
  | nil =>
    intro res bp
    simp [varintLoop_nil]
  | cons b rest ihl =>
    intro res bp
    by_cases hbp : 64 ≤ bp
    · rw [varintLoop_overflow_step b rest res bp hbp]
      simp
    · by_cases hb : b &&& 0x80 = 0
      · rw [varintLoop_last_step b rest res bp hb (by omega)]
        simp
      · rw [varintLoop_cont_step b rest res bp hb (by omega)]
        have := ihl ((res + ((b &&& 0x7f) <<< bp) % 2 ^ 64) % 2 ^ 64) (bp + 7)
        simp only [List.length_cons]
        omega

/-- The loop never reports `Eof` (or a panic): its only outcomes are a
value, `UnexpectedEof`, or `VarintOverflow`. -/
theorem varintLoop_shape : ∀ (l : List Nat) (res bp : Nat),
    (∃ v, (varintLoop l res bp).1 = .ok v) ∨
    (varintLoop l res bp).1 = .err .UnexpectedEof ∨
    (varintLoop l res bp).1 = .err .VarintOverflow := by
  intro l
  induction l with
  | nil =>
    intro res bp
    right
    left
    rfl
  | cons b rest ihl =>
    intro res bp
    by_cases hbp : 64 ≤ bp
    · rw [varintLoop_overflow_step b rest res bp hbp]
      right
      right
      rfl
    · by_cases hb : b &&& 0x80 = 0
      · rw [varintLoop_last_step b rest res bp hb (by omega)]
        exact Or.inl ⟨_, rfl⟩
      · rw [varintLoop_cont_step b rest res bp hb (by omega)]
        exact ihl _ (bp + 7)

theorem varintLoop_ok_consumed_pos : ∀ (l : List Nat) (res bp v : Nat),
    (varintLoop l res bp).1 = .ok v → 1 ≤ (varintLoop l res bp).2 := by
  intro l
  induction l with
  | nil =>
    intro res bp v hv
    exact absurd hv (by simp [varintLoop_nil])
  | cons b rest ihl =>
    intro res bp v hv
    by_cases hbp : 64 ≤ bp
    · rw [varintLoop_overflow_step b rest res bp hbp]
    · by_cases hb : b &&& 0x80 = 0
      · rw [varintLoop_last_step b rest res bp hb (by omega)]
      · rw [varintLoop_cont_step b rest res bp hb (by omega)]
        omega

/-- A truncated varint consumes the whole remaining buffer. -/
theorem varintLoop_ueof_consumed : ∀ (l : List Nat) (res bp : Nat),
    (varintLoop l res bp).1 = .err .UnexpectedEof →
    (varintLoop l res bp).2 = l.length := by
  intro l
  induction l with
  | nil =>
    intro res bp _
    rfl
  | cons b rest ihl =>
    intro res bp hv
    by_cases hbp : 64 ≤ bp
    · rw [varintLoop_overflow_step b rest res bp hbp] at hv
      exact absurd hv (by simp)
    · by_cases hb : b &&& 0x80 = 0
      · rw [varintLoop_last_step b rest res bp hb (by omega)] at hv
        exact absurd hv (by simp)
      · rw [varintLoop_cont_step b rest res bp hb (by omega)] at hv ⊢
        have := ihl ((res + ((b &&& 0x7f) <<< bp) % 2 ^ 64) % 2 ^ 64) (bp + 7) hv
        simp only [List.length_cons]
        omega

/-- An overflowing varint consumes exactly `ceil((64 - bp) / 7) + 1` bytes:
the bytes that push the shift to 64 bits plus the offending one. -/
theorem varintLoop_overflow_consumed : ∀ (l : List Nat) (res bp : Nat),
    (varintLoop l res bp).1 = .err .VarintOverflow →
    (varintLoop l res bp).2 = (64 - bp + 6) / 7 + 1 := by
  intro l
  induction l with
  | nil =>
    intro res bp hv
    exact absurd hv (by simp [varintLoop_nil])
  | cons b rest ihl =>
    intro res bp hv
    by_cases hbp : 64 ≤ bp
    · rw [varintLoop_overflow_step b rest res bp hbp]
      have : 64 - bp = 0 := by omega
      rw [this]
    · by_cases hb : b &&& 0x80 = 0
      · rw [varintLoop_last_step b rest res bp hb (by omega)] at hv
        exact absurd hv (by simp)
      · rw [varintLoop_cont_step b rest res bp hb (by omega)] at hv ⊢
        have := ihl ((res + ((b &&& 0x7f) <<< bp) % 2 ^ 64) % 2 ^ 64) (bp + 7) hv
        omega

/-- All-continuation remainders within the 10-byte shift window end in
`UnexpectedEof` after consuming everything. -/
theorem varintLoop_all_cont : ∀ (l : List Nat) (res bp : Nat),
    (∀ b ∈ l, ¬ b &&& 0x80 = 0) → bp + 7 * l.length ≤ 70 →
    varintLoop l res bp = (.err .UnexpectedEof, l.length) := by
  intro l
  induction l with
  | nil =>
    intro res bp _ _
    rfl
  | cons b rest ihl =>
    intro res bp hc hlen
    simp only [List.length_cons] at hlen
    have hb : ¬ b &&& 0x80 = 0 := hc b (by simp)
    rw [varintLoop_cont_step b rest res bp hb (by omega)]
    rw [ihl _ (bp + 7) (fun x hx => hc x (by simp [hx])) (by omega)]
    simp

/-- Convenient unfolding of `next_varint` through the loop. -/
theorem next_varint_eq (r : PbReader) :
    r.next_varint = ((varintLoop (r.buf.drop r.pos) 0 0).1,
      ⟨r.buf, r.pos + (varintLoop (r.buf.drop r.pos) 0 0).2⟩) := by
  cases hvl : varintLoop (r.buf.drop r.pos) 0 0 with
  | mk out k => simp [PbReader.next_varint, hvl]

/-! ### Claim C6: zigzag round trip -/

/-- C6: for every i64 value `v`, decoding the zigzag encoding of `v` gives
back `v` (the transforms are total, using the source's wrapping release
semantics for the `+ 1`/negation in decode); and `zigzag_encode(0) = 0`,
`zigzag_encode(-1) = 1`, `zigzag_encode(1) = 2`. -/
theorem zigzag_round_trip (v : Int) (h1 : -(2 ^ 63) ≤ v) (h2 : v < 2 ^ 63) :
    varint_to_svarint (svarint_to_varint v) = v ∧
    svarint_to_varint 0 = 0 ∧ svarint_to_varint (-1) = 1 ∧ svarint_to_varint 1 = 2 := by
  refine ⟨?_, by decide, by decide, by decide⟩
  have hp63 : (2 : Int) ^ 63 = 9223372036854775808 := by norm_num
  have hp64 : (2 : Int) ^ 64 = 18446744073709551616 := by norm_num
  have hn63 : (2 : Nat) ^ 63 = 9223372036854775808 := by norm_num
  have hn64 : (2 : Nat) ^ 64 = 18446744073709551616 := by norm_num
  by_cases hneg : v < 0
  · -- negative values: the encoding is 2 * |v| - 1
    set m : Nat := (-v).toNat with hm
    have hmv : (m : Int) = -v := Int.toNat_of_nonneg (by omega)
    have hm1 : 1 ≤ m := by omega
    have hm2 : m ≤ 2 ^ 63 := by omega
    have hbits : i64Bits v = 2 ^ 64 - m := by
      simp only [i64Bits]
      have he : v % (2 ^ 64 : Int) = v + 2 ^ 64 := by omega
      rw [he]
      omega
    have henc : svarint_to_varint v = 2 * m - 1 := by
      simp only [svarint_to_varint, hbits, if_pos hneg]
      rw [Nat.shiftLeft_eq]
      have hsh : (2 ^ 64 - m) * 2 ^ 1 % 2 ^ 64 = 2 ^ 64 - 2 * m := by omega
      rw [hsh, xor_two_pow_sub_one 64 (2 ^ 64 - 2 * m) (by omega)]
      omega
    rw [henc]
    simp only [varint_to_svarint]
    rw [if_pos (by rw [Nat.and_one_is_mod]; omega)]
    have hsr : (2 * m - 1) >>> 1 = m - 1 := by
      rw [Nat.shiftRight_eq_div_pow]
      omega
    rw [hsr]
    have hcast : ((m - 1 : Nat) : Int) + 1 = (m : Int) := by omega
    rw [hcast]
    simp only [wrapI64]
    omega
  · -- nonnegative values: the encoding is 2 * v
    have hbits : i64Bits v = v.toNat := by
      simp only [i64Bits]
      have he : v % (2 ^ 64 : Int) = v := by omega
      rw [he]
    have henc : svarint_to_varint v = 2 * v.toNat := by
      simp only [svarint_to_varint, hbits, if_neg hneg]
      rw [Nat.shiftLeft_eq, Nat.xor_zero]
      have : v.toNat * 2 ^ 1 % 2 ^ 64 = 2 * v.toNat := by omega
      rw [this]
    rw [henc]
    simp only [varint_to_svarint]
    rw [if_neg (by rw [Nat.and_one_is_mod]; omega)]
    have hsr : (2 * v.toNat) >>> 1 = v.toNat := by
      rw [Nat.shiftRight_eq_div_pow]
      omega
    rw [hsr]
    omega

/-- Witness for C6 at `v = -5`. -/
theorem zigzag_round_trip_witness :
    varint_to_svarint (svarint_to_varint (-5)) = -5 ∧
    svarint_to_varint 0 = 0 ∧ svarint_to_varint (-1) = 1 ∧ svarint_to_varint 1 = 2 :=
  zigzag_round_trip (-5) (by norm_num) (by norm_num)

/-! ### Claim C5: varint write/read round trip -/

/-- C5: writing any `u64` value `v` into a large-enough buffer and decoding
the committed bytes yields exactly `v`; value 0 encodes as the single byte
0x00, 127 as 0x7F, 128 as 0x80 0x01. -/
theorem varint_round_trip (v : Nat) (buf : List Nat) (hv : v < 2 ^ 64)
    (hb : 10 ≤ buf.length) :
    ∃ w' : PbWriter, PbWriter.write_varint ⟨buf, 0⟩ v = (.ok (), w') ∧
      w'.as_bytes = varintBytes v ∧
      PbReader.next_varint ⟨w'.as_bytes, 0⟩ =
        (.ok v, ⟨w'.as_bytes, (varintBytes v).length⟩) ∧
      varintBytes 0 = [0x00] ∧ varintBytes 127 = [0x7f] ∧
      varintBytes 128 = [0x80, 0x01] := by
  have hlen : (varintBytes v).length ≤ 10 := by
    apply varintBytes_length_le 10 (by norm_num) v
    calc v < 2 ^ 64 := hv
    _ ≤ 2 ^ (7 * 10) := by norm_num
  have hwr : PbWriter.write_varint ⟨buf, 0⟩ v =
      (.ok (), ⟨varintBytes v ++ buf.drop (varintBytes v).length, (varintBytes v).length⟩) := by
    rw [write_varint_ok buf 0 v (by omega)]
    simp
  refine ⟨_, hwr, ?_, ?_, ?_, ?_, ?_⟩
  · simp only [PbWriter.as_bytes]
    exact List.take_left _ _
  · have hab : PbWriter.as_bytes
        ⟨varintBytes v ++ buf.drop (varintBytes v).length, (varintBytes v).length⟩ =
        varintBytes v := by
      simp only [PbWriter.as_bytes]
      exact List.take_left _ _
    rw [hab, next_varint_eq]
    have hdrop : (varintBytes v).drop 0 = varintBytes v ++ [] := by simp
    rw [hdrop, varintLoop_decode v [] 0 0 (by norm_num) (by simpa using hv)]
    simp
  · rw [varintBytes_lt (by norm_num)]
  · rw [varintBytes_lt (by norm_num)]
  · rw [varintBytes_ge (by norm_num), varintBytes_lt (by decide)]
    decide

/-- Witness for C5 at `v = 300` into a fresh 10-byte buffer. -/
theorem varint_round_trip_witness :
    ∃ w' : PbWriter, PbWriter.write_varint ⟨List.replicate 10 0, 0⟩ 300 = (.ok (), w') ∧
      w'.as_bytes = varintBytes 300 ∧
      PbReader.next_varint ⟨w'.as_bytes, 0⟩ =
        (.ok 300, ⟨w'.as_bytes, (varintBytes 300).length⟩) ∧
      varintBytes 0 = [0x00] ∧ varintBytes 127 = [0x7f] ∧
      varintBytes 128 = [0x80, 0x01] :=
  varint_round_trip 300 (List.replicate 10 0) (by norm_num) (by simp)

/-! ### Claim C9: key decode -/

/-- C9: `next_key` and `peek_next_key` split the key byte as
`(b >> 3, wire type of b & 7)` with 0 ↦ Varint, 1 ↦ Bit64, 2 ↦ Bytes,
5 ↦ Bit32, and fail with `InvalidWireType(b & 7)` on every other low-3-bit
pattern; byte 0x08 decodes to (1, Varint), 0x12 to (2, Bytes), and 0x07
fails with `InvalidWireType(7)`. -/
theorem key_decode_spec (r : PbReader) (b : Nat) (h : r.pos < r.buf.length)
    (hb : r.buf.getD r.pos 0 = b) :
    (b &&& 7 = 0 → r.next_key = (.ok (b >>> 3, .Varint), ⟨r.buf, r.pos + 1⟩) ∧
      r.peek_next_key = .ok (b >>> 3, .Varint)) ∧
    (b &&& 7 = 1 → r.next_key = (.ok (b >>> 3, .Bit64), ⟨r.buf, r.pos + 1⟩) ∧
      r.peek_next_key = .ok (b >>> 3, .Bit64)) ∧
    (b &&& 7 = 2 → r.next_key = (.ok (b >>> 3, .Bytes), ⟨r.buf, r.pos + 1⟩) ∧
      r.peek_next_key = .ok (b >>> 3, .Bytes)) ∧
    (b &&& 7 = 5 → r.next_key = (.ok (b >>> 3, .Bit32), ⟨r.buf, r.pos + 1⟩) ∧
      r.peek_next_key = .ok (b >>> 3, .Bit32)) ∧
    (¬ b &&& 7 = 0 → ¬ b &&& 7 = 1 → ¬ b &&& 7 = 2 → ¬ b &&& 7 = 5 →
      r.next_key = (.err (.InvalidWireType (b &&& 7)), ⟨r.buf, r.pos + 1⟩) ∧
      r.peek_next_key = .err (.InvalidWireType (b &&& 7))) ∧
    PbReader.next_key ⟨[0x08], 0⟩ = (.ok (1, .Varint), ⟨[0x08], 1⟩) ∧
    PbReader.next_key ⟨[0x12], 0⟩ = (.ok (2, .Bytes), ⟨[0x12], 1⟩) ∧
    PbReader.next_key ⟨[0x07], 0⟩ = (.err (.InvalidWireType 7), ⟨[0x07], 1⟩) := by
  have hu : r.next_u8 = (some b, ⟨r.buf, r.pos + 1⟩) := by
    simp only [PbReader.next_u8, if_pos h]
    rw [hb]
  have hpk : r.peek_next_u8 = some b := by
    simp only [PbReader.peek_next_u8, if_pos h]
    rw [hb]
  refine ⟨?_, ?_, ?_, ?_, ?_, by decide, by decide, by decide⟩ <;>
    first
    | (intro h0
       constructor <;>
         simp [PbReader.next_key, PbReader.peek_next_key, hu, hpk, WireType.from_u8, h0])
    | (intro h0 h1 h2 h5
       constructor <;>
         simp [PbReader.next_key, PbReader.peek_next_key, hu, hpk, WireType.from_u8,
           h0, h1, h2, h5])

/-- Witness for C9 on the single-byte buffer `[0x1a]` (field 3, Bytes). -/
theorem key_decode_spec_witness :
    (0 : Nat) < ([0x1a] : List Nat).length ∧ ([0x1a] : List Nat).getD 0 0 = 0x1a ∧
    (0x1a : Nat) &&& 7 = 2 ∧
    (PbReader.next_key ⟨[0x1a], 0⟩ = (.ok (0x1a >>> 3, .Bytes), ⟨[0x1a], 1⟩) ∧
      PbReader.peek_next_key ⟨[0x1a], 0⟩ = .ok (0x1a >>> 3, .Bytes)) :=
  ⟨by decide, by decide, by decide,
    (key_decode_spec ⟨[0x1a], 0⟩ 0x1a (by decide) (by decide)).2.2.1 (by decide)⟩

/-! ### Claim C7: strict bound in write_bytes -/

/-- C7: the raw multi-byte writer rejects every write whose last byte would
land exactly at the end of the buffer (`pos + len = buf.len()`), including
a zero-length payload at `pos = buf.len()`; a raw write succeeds exactly
when `pos + len` is strictly below the buffer length. -/
theorem write_bytes_strict_bound :
    (∀ (w : PbWriter) (val : List Nat), w.pos + val.length = w.buf.length →
      w.write_bytes val = (.error .BufferOverflow, w)) ∧
    (∀ w : PbWriter, w.pos = w.buf.length →
      w.write_bytes [] = (.error .BufferOverflow, w)) ∧
    (∀ (w : PbWriter) (val : List Nat),
      (w.write_bytes val).1 = .ok () ↔ w.pos + val.length < w.buf.length) := by
  refine ⟨?_, ?_, ?_⟩
  · intro w val heq
    simp only [PbWriter.write_bytes, if_neg (by omega : ¬ w.pos + val.length < w.buf.length)]
  · intro w heq
    simp only [PbWriter.write_bytes, List.length_nil]
    rw [if_neg (by omega : ¬ w.pos + 0 < w.buf.length)]
  · intro w val
    constructor
    · intro hok
      by_contra hc
      simp only [PbWriter.write_bytes, if_neg hc] at hok
      exact absurd hok (by simp)
    · intro hc
      simp only [PbWriter.write_bytes, if_pos hc]

/-- Witness for C7: a 2-byte write into an exactly-2-byte buffer from
position 0 is rejected. -/
theorem write_bytes_strict_bound_witness :
    (⟨[0, 0], 0⟩ : PbWriter).pos + ([9, 9] : List Nat).length =
      (⟨[0, 0], 0⟩ : PbWriter).buf.length ∧
    PbWriter.write_bytes ⟨[0, 0], 0⟩ [9, 9] = (.error .BufferOverflow, ⟨[0, 0], 0⟩) :=
  ⟨by decide, write_bytes_strict_bound.1 ⟨[0, 0], 0⟩ [9, 9] (by decide)⟩

/-! ### Claim C1: InvalidFieldNumber is unreachable -/

/-- C1 (against the claim): `u8::checked_shl(3)` never fails, so
`encode_varint_field(32, 1)` does not return `InvalidFieldNumber(32)`: it
silently wraps the key byte to 0x00 and succeeds; in general the only
outcomes of `encode_varint_field` are success and `BufferOverflow`. -/
theorem encode_field_number_over_31_succeeds :
    PbWriter.encode_varint_field ⟨[0, 0], 0⟩ 32 1 = (.ok (), ⟨[0, 1], 2⟩) ∧
    (∀ (w : PbWriter) (fn v : Nat), (w.encode_varint_field fn v).1 = .ok () ∨
      (w.encode_varint_field fn v).1 = .error .BufferOverflow) := by
  constructor
  · simp [PbWriter.encode_varint_field, u8CheckedShl, PbWriter.write_u8,
      PbWriter.write_varint, writeVarintLoop, WireType.tag]
    decide
  · intro w fn v
    obtain ⟨buf, pos⟩ := w
    simp only [PbWriter.encode_varint_field, u8CheckedShl,
      if_neg (by norm_num : ¬ (8 : Nat) ≤ 3), PbWriter.write_u8]
    by_cases hp : pos < buf.length
    · simp only [if_pos hp]
      cases hw : PbWriter.write_varint
          ⟨buf.set pos (fn <<< 3 % 2 ^ 8 + WireType.Varint.tag), pos + 1⟩ v with
      | mk o w₂ =>
        cases o with
        | ok u =>
          left
          rfl
        | error e =>
          right
          have he : (PbWriter.write_varint
              ⟨buf.set pos (fn <<< 3 % 2 ^ 8 + WireType.Varint.tag), pos + 1⟩ v).1 =
              .error e := by rw [hw]
          have hbo := (write_varint_error _ v e he).1
          simp [hbo]
    · simp only [if_neg hp]
      right
      trivial

/-! ### Claim C3: writer state after a failed call -/

theorem take_eq_of_take_eq_ge {l₁ l₂ : List Nat} {n m : Nat} (h : n ≤ m)
    (he : l₁.take m = l₂.take m) : l₁.take n = l₂.take n := by
  have h1 : l₁.take n = (l₁.take m).take n := by
    rw [List.take_take, Nat.min_eq_left h]
  have h2 : l₂.take n = (l₂.take m).take n := by
    rw [List.take_take, Nat.min_eq_left h]
  rw [h1, he, ← h2]

theorem encode_varint_field_error_state (w : PbWriter) (fn v : Nat) (e : Error)
    (he : (w.encode_varint_field fn v).1 = .error e) :
    w.pos ≤ (w.encode_varint_field fn v).2.pos ∧
    (w.encode_varint_field fn v).2.buf.take w.pos = w.buf.take w.pos := by
  obtain ⟨buf, pos⟩ := w
  simp only [PbWriter.encode_varint_field, u8CheckedShl,
    if_neg (by norm_num : ¬ (8 : Nat) ≤ 3), PbWriter.write_u8] at he ⊢
  by_cases hp : pos < buf.length
  · simp only [if_pos hp] at he ⊢
    have herr := write_varint_error _ v e he
    have hpos : (PbWriter.write_varint
        ⟨buf.set pos (fn <<< 3 % 2 ^ 8 + WireType.Varint.tag), pos + 1⟩ v).2.pos =
        pos + 1 := herr.2.1
    constructor
    · rw [hpos]
      exact Nat.le_succ pos
    · have htk : (PbWriter.write_varint
          ⟨buf.set pos (fn <<< 3 % 2 ^ 8 + WireType.Varint.tag), pos + 1⟩ v).2.buf.take
            (pos + 1) =
          (buf.set pos (fn <<< 3 % 2 ^ 8 + WireType.Varint.tag)).take (pos + 1) :=
        herr.2.2.1
      have h1 := take_eq_of_take_eq_ge (Nat.le_succ pos) htk
      rw [h1, take_set_of_le buf pos pos _ (Nat.le_refl pos)]
  · simp only [if_neg hp] at he ⊢
    exact ⟨Nat.le_refl pos, by trivial⟩

theorem encode_bytes_field_error_state (w : PbWriter) (fn : Nat) (v : List Nat) (e : Error)
    (he : (w.encode_bytes_field fn v).1 = .error e) :
    w.pos ≤ (w.encode_bytes_field fn v).2.pos ∧
    (w.encode_bytes_field fn v).2.buf.take w.pos = w.buf.take w.pos := by
  obtain ⟨buf, pos⟩ := w
  simp only [PbWriter.encode_bytes_field, u8CheckedShl,
    if_neg (by norm_num : ¬ (8 : Nat) ≤ 3), PbWriter.write_u8] at he ⊢
  by_cases hp : pos < buf.length
  · simp only [if_pos hp] at he ⊢
    cases hw : PbWriter.write_varint
        ⟨buf.set pos (fn <<< 3 % 2 ^ 8 + WireType.Bytes.tag), pos + 1⟩ v.length with
    | mk o w₂ =>
      simp only [hw] at he ⊢
      cases o with
      | ok u =>
        have hok : (PbWriter.write_varint
            ⟨buf.set pos (fn <<< 3 % 2 ^ 8 + WireType.Bytes.tag), pos + 1⟩ v.length).1 =
            .ok () := by rw [hw]
        have hmono := write_varint_mono _ v.length hok
        rw [hw] at hmono
        have hm1 : pos + 1 ≤ w₂.pos := hmono.1
        have hm2 : w₂.buf.take (pos + 1) =
            (buf.set pos (fn <<< 3 % 2 ^ 8 + WireType.Bytes.tag)).take (pos + 1) :=
          hmono.2.1
        simp only [PbWriter.write_bytes] at he ⊢
        by_cases hc : w₂.pos + v.length < w₂.buf.length
        · simp only [if_pos hc] at he
          exact absurd he (by simp)
        · simp only [if_neg hc] at he ⊢
          constructor
          · omega
          · have h1 := take_eq_of_take_eq_ge (Nat.le_succ pos) hm2
            rw [h1, take_set_of_le buf pos pos _ (Nat.le_refl pos)]
      | error e' =>
        simp only []
        have he' : (PbWriter.write_varint
            ⟨buf.set pos (fn <<< 3 % 2 ^ 8 + WireType.Bytes.tag), pos + 1⟩ v.length).1 =
            .error e' := by rw [hw]
        have herr := write_varint_error _ v.length e' he'
        rw [hw] at herr
        have hp1 : w₂.pos = pos + 1 := herr.2.1
        have hp2 : w₂.buf.take (pos + 1) =
            (buf.set pos (fn <<< 3 % 2 ^ 8 + WireType.Bytes.tag)).take (pos + 1) :=
          herr.2.2.1
        constructor
        · omega
        · have h1 := take_eq_of_take_eq_ge (Nat.le_succ pos) hp2
          rw [h1, take_set_of_le buf pos pos _ (Nat.le_refl pos)]
  · simp only [if_neg hp] at he ⊢
    exact ⟨Nat.le_refl pos, by trivial⟩

/-- C3 (counterexample): a failing `encode_varint_field` into a 1-byte
buffer commits the key byte: `as_bytes` grows from `[]` to `[0x08]` even
though the call reports `BufferOverflow`. -/
theorem encode_varint_field_commits_key_on_failure :
    PbWriter.encode_varint_field ⟨[0], 0⟩ 1 1 = (.error .BufferOverflow, ⟨[8], 1⟩) ∧
    PbWriter.as_bytes ⟨[8], 1⟩ = [8] ∧
    PbWriter.as_bytes ⟨[0], 0⟩ = [] := by
  refine ⟨?_, by decide, by decide⟩
  simp [PbWriter.encode_varint_field, u8CheckedShl, PbWriter.write_u8,
    PbWriter.write_varint, writeVarintLoop, WireType.tag]

/-- C3 (amended): a failing `write_varint` restores the position and leaves
`as_bytes` unchanged; a failing field-level encode call preserves the
previously committed prefix and never moves the position backwards, but may
leave the already-written key byte (and, for bytes fields, the length
varint) committed. -/
theorem writer_failure_committed_state :
    (∀ (w : PbWriter) (v : Nat) (e : Error), (w.write_varint v).1 = .error e →
      (w.write_varint v).2.pos = w.pos ∧ (w.write_varint v).2.as_bytes = w.as_bytes) ∧
    (∀ (w : PbWriter) (fn v : Nat) (e : Error), (w.encode_varint_field fn v).1 = .error e →
      w.pos ≤ (w.encode_varint_field fn v).2.pos ∧
      (w.encode_varint_field fn v).2.buf.take w.pos = w.buf.take w.pos) ∧
    (∀ (w : PbWriter) (fn : Nat) (v : Int) (e : Error),
      (w.encode_svarint_field fn v).1 = .error e →
      w.pos ≤ (w.encode_svarint_field fn v).2.pos ∧
      (w.encode_svarint_field fn v).2.buf.take w.pos = w.buf.take w.pos) ∧
    (∀ (w : PbWriter) (fn : Nat) (v : List Nat) (e : Error),
      (w.encode_bytes_field fn v).1 = .error e →
      w.pos ≤ (w.encode_bytes_field fn v).2.pos ∧
      (w.encode_bytes_field fn v).2.buf.take w.pos = w.buf.take w.pos) ∧
    (∀ (w : PbWriter) (fn : Nat) (v : List Nat) (e : Error),
      (w.encode_string_field fn v).1 = .error e →
      w.pos ≤ (w.encode_string_field fn v).2.pos ∧
      (w.encode_string_field fn v).2.buf.take w.pos = w.buf.take w.pos) := by
  refine ⟨?_, ?_, ?_, ?_, ?_⟩
  · intro w v e he
    have hwe := write_varint_error w v e he
    refine ⟨hwe.2.1, ?_⟩
    simp only [PbWriter.as_bytes, hwe.2.1, hwe.2.2.1]
  · intro w fn v e he
    exact encode_varint_field_error_state w fn v e he
  · intro w fn v e he
    exact encode_varint_field_error_state w fn (svarint_to_varint v) e he
  · intro w fn v e he
    exact encode_bytes_field_error_state w fn v e he
  · intro w fn v e he
    exact encode_bytes_field_error_state w fn v e he

/-- Witness for C3's amended statement: a failed raw varint write into an
empty buffer leaves the writer exactly as it was. -/
theorem writer_failure_committed_state_witness :
    (PbWriter.write_varint ⟨[], 0⟩ 5).1 = .error .BufferOverflow ∧
    ((PbWriter.write_varint ⟨[], 0⟩ 5).2.pos = (⟨[], 0⟩ : PbWriter).pos ∧
      (PbWriter.write_varint ⟨[], 0⟩ 5).2.as_bytes = PbWriter.as_bytes ⟨[], 0⟩) := by
  have hpf : (PbWriter.write_varint ⟨[], 0⟩ 5).1 = .error .BufferOverflow := by
    simp [PbWriter.write_varint, writeVarintLoop, PbWriter.write_u8]
  exact ⟨hpf, writer_failure_committed_state.1 ⟨[], 0⟩ 5 .BufferOverflow hpf⟩

/-! ### Claim C2: next_bytes with a huge declared length -/

/-- C2 (against the claim): on a varint declaring length `2^64 - 1` with no
bytes remaining, `next_bytes` does not return `UnexpectedEof`: the wrapping
`pos + len` bounds check passes (the wrapped end index 9 is not greater
than the buffer length 10) and the slice indexing aborts — a Rust panic,
modelled as `fatal`. -/
theorem next_bytes_huge_length_aborts :
    PbReader.next_bytes ⟨[0xff, 0xff, 0xff, 0xff, 0xff, 0xff, 0xff, 0xff, 0xff, 0x01], 0⟩ =
      (.fatal, ⟨[0xff, 0xff, 0xff, 0xff, 0xff, 0xff, 0xff, 0xff, 0xff, 0x01], 10⟩) ∧
    (PbReader.next_varint
      ⟨[0xff, 0xff, 0xff, 0xff, 0xff, 0xff, 0xff, 0xff, 0xff, 0x01], 0⟩).1 =
      .ok (2 ^ 64 - 1) := by
  exact ⟨by decide, by decide⟩

/-! ### Claim C8: Eof versus UnexpectedEof taxonomy -/

/-- C8 (counterexample): a length-delimited read whose declared length
(`2^64 - 1`) exceeds the remaining bytes does not always return
`UnexpectedEof` — with a wrapping `pos + len` the code aborts (`fatal`)
instead. -/
theorem next_bytes_underrun_not_unexpected_eof :
    PbReader.next_bytes
      ⟨[0xff, 0xff, 0xff, 0xff, 0xff, 0xff, 0xff, 0xff, 0xff, 0x01, 0x55], 0⟩ =
      (.fatal, ⟨[0xff, 0xff, 0xff, 0xff, 0xff, 0xff, 0xff, 0xff, 0xff, 0x01, 0x55], 10⟩) ∧
    (PbReader.next_varint
      ⟨[0xff, 0xff, 0xff, 0xff, 0xff, 0xff, 0xff, 0xff, 0xff, 0x01, 0x55], 0⟩).1 =
      .ok (2 ^ 64 - 1) := by
  exact ⟨by decide, by decide⟩

/-- C8 (amended): `next_key`/`peek_next_key` return `Eof` exactly when zero
bytes remain; a truncated varint, and fixed32/fixed64 or length-delimited
reads with too few remaining bytes, return `UnexpectedEof` (for the
length-delimited read: whenever the `pos + len` bounds arithmetic does not
wrap — in the wrapping case the code aborts instead); and neither
`next_varint` nor `next_bytes` ever returns `Eof`. -/
theorem reader_eof_taxonomy :
    (∀ r : PbReader, (r.next_key.1 = .err .Eof ↔ r.buf.length ≤ r.pos) ∧
      (r.peek_next_key = .err .Eof ↔ r.buf.length ≤ r.pos)) ∧
    (∀ r : PbReader, (∃ v, r.next_varint.1 = .ok v) ∨
      r.next_varint.1 = .err .UnexpectedEof ∨ r.next_varint.1 = .err .VarintOverflow) ∧
    (∀ r : PbReader, (∀ b ∈ r.buf.drop r.pos, ¬ b &&& 0x80 = 0) →
      r.buf.length ≤ r.pos + 10 → r.next_varint.1 = .err .UnexpectedEof) ∧
    (∀ r : PbReader, r.buf.length < r.pos + 4 → r.next_fixed32 = (.err .UnexpectedEof, r)) ∧
    (∀ r : PbReader, r.buf.length < r.pos + 8 → r.next_fixed64 = (.err .UnexpectedEof, r)) ∧
    (∀ (r r₁ : PbReader) (len : Nat), r.next_varint = (.ok len, r₁) →
      r₁.pos + len < 2 ^ 64 → r₁.buf.length < r₁.pos + len →
      r.next_bytes = (.err .UnexpectedEof, r₁)) ∧
    (∀ r : PbReader, ¬ r.next_bytes.1 = .err .Eof) := by
  refine ⟨?_, ?_, ?_, ?_, ?_, ?_, ?_⟩
  · intro r
    by_cases hp : r.pos < r.buf.length
    · have hu : r.next_u8 = (some (r.buf.getD r.pos 0), ⟨r.buf, r.pos + 1⟩) := by
        simp only [PbReader.next_u8, if_pos hp]
      have hpk : r.peek_next_u8 = some (r.buf.getD r.pos 0) := by
        simp only [PbReader.peek_next_u8, if_pos hp]
      constructor <;>
        [skip; skip] <;>
        · simp only [PbReader.next_key, PbReader.peek_next_key, hu, hpk]
          cases WireType.from_u8 (r.buf.getD r.pos 0 &&& 0b111) <;> simp <;> omega
    · have hu : r.next_u8 = (none, r) := by
        simp only [PbReader.next_u8, if_neg hp]
      have hpk : r.peek_next_u8 = none := by
        simp only [PbReader.peek_next_u8, if_neg hp]
      constructor <;>
        · simp only [PbReader.next_key, PbReader.peek_next_key, hu, hpk]
          simp
          omega
  · intro r
    rw [next_varint_eq]
    exact varintLoop_shape (r.buf.drop r.pos) 0 0
  · intro r hc hlen
    rw [next_varint_eq]
    have hl : (r.buf.drop r.pos).length ≤ 10 := by
      rw [List.length_drop]
      omega
    rw [varintLoop_all_cont (r.buf.drop r.pos) 0 0 hc (by omega)]
  · intro r h
    simp only [PbReader.next_fixed32, if_pos (by omega : r.pos + 4 > r.buf.length)]
  · intro r h
    simp only [PbReader.next_fixed64, if_pos (by omega : r.pos + 8 > r.buf.length)]
  · intro r r₁ len hv hnw hlen
    simp only [PbReader.next_bytes, hv]
    have hstop : (r₁.pos + len) % 2 ^ 64 = r₁.pos + len := Nat.mod_eq_of_lt hnw
    rw [hstop, if_pos (by omega : r₁.pos + len > r₁.buf.length)]
  · intro r
    simp only [PbReader.next_bytes]
    cases hv : r.next_varint with
    | mk o r₁ =>
      cases o with
      | ok len =>
        simp only []
        by_cases h1 : (r₁.pos + len) % 2 ^ 64 > r₁.buf.length
        · rw [if_pos h1]
          simp
        · rw [if_neg h1]
          by_cases h2 : r₁.pos ≤ (r₁.pos + len) % 2 ^ 64
          · rw [if_pos h2]
            simp
          · rw [if_neg h2]
            simp
      | err e =>
        have hsh := varintLoop_shape (r.buf.drop r.pos) 0 0
        rw [next_varint_eq] at hv
        have h1 : (varintLoop (r.buf.drop r.pos) 0 0).1 = .err e := by
          rw [congrArg Prod.fst hv]
        rcases hsh with ⟨v, hsh⟩ | hsh | hsh <;> rw [hsh] at h1
        · exact absurd h1 (by simp)
        · have he : e = .UnexpectedEof := (ROut.err.inj h1).symm
          subst he
          simp
        · have he : e = .VarintOverflow := (ROut.err.inj h1).symm
          subst he
          simp
      | fatal =>
        simp

/-- Witness for C8's amended statement: a buffer of two continuation bytes
is a truncated varint and fails with `UnexpectedEof`. -/
theorem reader_eof_taxonomy_witness :
    (∀ b ∈ (⟨[0x80, 0x80], 0⟩ : PbReader).buf.drop (⟨[0x80, 0x80], 0⟩ : PbReader).pos,
      ¬ b &&& 0x80 = 0) ∧
    (⟨[0x80, 0x80], 0⟩ : PbReader).buf.length ≤ (⟨[0x80, 0x80], 0⟩ : PbReader).pos + 10 ∧
    (PbReader.next_varint ⟨[0x80, 0x80], 0⟩).1 = .err .UnexpectedEof := by
  have h1 : ∀ b ∈ (⟨[0x80, 0x80], 0⟩ : PbReader).buf.drop
      (⟨[0x80, 0x80], 0⟩ : PbReader).pos, ¬ b &&& 0x80 = 0 := by decide
  have h2 : (⟨[0x80, 0x80], 0⟩ : PbReader).buf.length ≤
      (⟨[0x80, 0x80], 0⟩ : PbReader).pos + 10 := by decide
  exact ⟨h1, h2, reader_eof_taxonomy.2.2.1 ⟨[0x80, 0x80], 0⟩ h1 h2⟩

/-! ### Claim C10: reader failures are not atomic, positions stay bounded -/

/-- C10: a failing `next_bytes` (declared length over the remaining bytes,
non-wrapping) leaves the reader exactly where the length varint left it —
strictly past the original position, not restored; each failing reader
operation leaves the position at the point the error was detected
(`next_key` after its key byte on a bad wire type, unchanged on `Eof`;
`next_fixed32`/`next_fixed64` unchanged; a truncated varint at the end of
the buffer; an overflowing varint after its 11 consumed bytes); and no
operation ever moves the position backwards, past the buffer end, or
changes the buffer. -/
theorem reader_failure_positions :
    (∀ (r r₁ : PbReader) (len : Nat), r.next_varint = (.ok len, r₁) →
      r₁.buf.length < r₁.pos + len → r₁.pos + len < 2 ^ 64 →
      r.next_bytes = (.err .UnexpectedEof, r₁) ∧ r.pos < r₁.pos) ∧
    (∀ r : PbReader, r.next_key.1 = .err .Eof → r.next_key.2 = r) ∧
    (∀ (r : PbReader) (t : Nat), r.next_key.1 = .err (.InvalidWireType t) →
      r.next_key.2 = ⟨r.buf, r.pos + 1⟩) ∧
    (∀ r : PbReader, r.next_fixed32.1 = .err .UnexpectedEof → r.next_fixed32.2 = r) ∧
    (∀ r : PbReader, r.next_fixed64.1 = .err .UnexpectedEof → r.next_fixed64.2 = r) ∧
    (∀ r : PbReader, r.pos ≤ r.buf.length → r.next_varint.1 = .err .UnexpectedEof →
      r.next_varint.2.pos = r.buf.length) ∧
    (∀ r : PbReader, r.next_varint.1 = .err .VarintOverflow →
      r.next_varint.2.pos = r.pos + 11) ∧
    (∀ r : PbReader, r.pos ≤ r.buf.length →
      (r.pos ≤ r.next_key.2.pos ∧ r.next_key.2.pos ≤ r.buf.length ∧
        r.next_key.2.buf = r.buf) ∧
      (r.pos ≤ r.next_varint.2.pos ∧ r.next_varint.2.pos ≤ r.buf.length ∧
        r.next_varint.2.buf = r.buf) ∧
      (r.pos ≤ r.next_fixed32.2.pos ∧ r.next_fixed32.2.pos ≤ r.buf.length ∧
        r.next_fixed32.2.buf = r.buf) ∧
      (r.pos ≤ r.next_fixed64.2.pos ∧ r.next_fixed64.2.pos ≤ r.buf.length ∧
        r.next_fixed64.2.buf = r.buf) ∧
      (r.pos ≤ r.next_bytes.2.pos ∧ r.next_bytes.2.pos ≤ r.buf.length ∧
        r.next_bytes.2.buf = r.buf)) := by
  have hvbounds : ∀ r : PbReader, r.pos ≤ r.buf.length →
      r.pos ≤ r.next_varint.2.pos ∧ r.next_varint.2.pos ≤ r.buf.length ∧
      r.next_varint.2.buf = r.buf := by
    intro r hle
    rw [next_varint_eq]
    simp only []
    have hk := varintLoop_consumed_le (r.buf.drop r.pos) 0 0
    rw [List.length_drop] at hk
    exact ⟨by omega, by omega, by trivial⟩
  refine ⟨?_, ?_, ?_, ?_, ?_, ?_, ?_, ?_⟩
  · intro r r₁ len hv hlen hnw
    constructor
    · simp only [PbReader.next_bytes, hv]
      have hstop : (r₁.pos + len) % 2 ^ 64 = r₁.pos + len := Nat.mod_eq_of_lt hnw
      rw [hstop, if_pos (by omega : r₁.pos + len > r₁.buf.length)]
    · rw [next_varint_eq] at hv
      have h1 : (varintLoop (r.buf.drop r.pos) 0 0).1 = .ok len := by
        rw [congrArg Prod.fst hv]
      have h2 := varintLoop_ok_consumed_pos (r.buf.drop r.pos) 0 0 len h1
      have h3 : r₁ = ⟨r.buf, r.pos + (varintLoop (r.buf.drop r.pos) 0 0).2⟩ :=
        (congrArg Prod.snd hv).symm
      have h4 : r₁.pos = r.pos + (varintLoop (r.buf.drop r.pos) 0 0).2 := by
        rw [h3]
      omega
  · intro r he
    by_cases hp : r.pos < r.buf.length
    · obtain ⟨b, hb⟩ : ∃ b, r.buf.getD r.pos 0 = b := ⟨_, rfl⟩
      have hu : r.next_u8 = (some b, ⟨r.buf, r.pos + 1⟩) := by
        simp only [PbReader.next_u8, if_pos hp]
        rw [hb]
      simp only [PbReader.next_key, hu] at he
      cases hfu : WireType.from_u8 (b &&& 0b111) <;> simp [hfu] at he
    · have hu : r.next_u8 = (none, r) := by
        simp only [PbReader.next_u8, if_neg hp]
      simp only [PbReader.next_key, hu]
  · intro r t he
    by_cases hp : r.pos < r.buf.length
    · obtain ⟨b, hb⟩ : ∃ b, r.buf.getD r.pos 0 = b := ⟨_, rfl⟩
      have hu : r.next_u8 = (some b, ⟨r.buf, r.pos + 1⟩) := by
        simp only [PbReader.next_u8, if_pos hp]
        rw [hb]
      simp only [PbReader.next_key, hu] at he ⊢
      cases hfu : WireType.from_u8 (b &&& 0b111) <;> simp [hfu] at he ⊢
    · have hu : r.next_u8 = (none, r) := by
        simp only [PbReader.next_u8, if_neg hp]
      simp only [PbReader.next_key, hu] at he
      simp at he
  · intro r he
    by_cases hp : r.pos + 4 > r.buf.length
    · simp only [PbReader.next_fixed32, if_pos hp]
    · simp only [PbReader.next_fixed32, if_neg hp] at he
      exact absurd he (by simp)
  · intro r he
    by_cases hp : r.pos + 8 > r.buf.length
    · simp only [PbReader.next_fixed64, if_pos hp]
    · simp only [PbReader.next_fixed64, if_neg hp] at he
      exact absurd he (by simp)
  · intro r hle he
    rw [next_varint_eq] at he ⊢
    have hk := varintLoop_ueof_consumed (r.buf.drop r.pos) 0 0 he
    rw [List.length_drop] at hk
    simp only [hk]
    omega
  · intro r he
    rw [next_varint_eq] at he ⊢
    have hk := varintLoop_overflow_consumed (r.buf.drop r.pos) 0 0 he
    simp only [hk]
  · intro r hle
    refine ⟨?_, hvbounds r hle, ?_, ?_, ?_⟩
    · by_cases hp : r.pos < r.buf.length
      · obtain ⟨b, hb⟩ : ∃ b, r.buf.getD r.pos 0 = b := ⟨_, rfl⟩
        have hu : r.next_u8 = (some b, ⟨r.buf, r.pos + 1⟩) := by
          simp only [PbReader.next_u8, if_pos hp]
          rw [hb]
        simp only [PbReader.next_key, hu]
        cases hfu : WireType.from_u8 (b &&& 0b111) <;> simp only [hfu] <;>
          exact ⟨by omega, by omega, by trivial⟩
      · have hu : r.next_u8 = (none, r) := by
          simp only [PbReader.next_u8, if_neg hp]
        simp only [PbReader.next_key, hu]
        exact ⟨Nat.le_refl _, hle, by trivial⟩
    · by_cases hp : r.pos + 4 > r.buf.length
      · simp only [PbReader.next_fixed32, if_pos hp]
        exact ⟨Nat.le_refl _, hle, by trivial⟩
      · simp only [PbReader.next_fixed32, if_neg hp]
        exact ⟨by omega, by omega, by trivial⟩
    · by_cases hp : r.pos + 8 > r.buf.length
      · simp only [PbReader.next_fixed64, if_pos hp]
        exact ⟨Nat.le_refl _, hle, by trivial⟩
      · simp only [PbReader.next_fixed64, if_neg hp]
        exact ⟨by omega, by omega, by trivial⟩
    · have hvb := hvbounds r hle
      simp only [PbReader.next_bytes]
      cases hv : r.next_varint with
      | mk o r₁ =>
        rw [hv] at hvb
        cases o with
        | ok len =>
          simp only []
          by_cases h1 : (r₁.pos + len) % 2 ^ 64 > r₁.buf.length
          · rw [if_pos h1]
            exact ⟨hvb.1, hvb.2.1, hvb.2.2⟩
          · rw [if_neg h1]
            by_cases h2 : r₁.pos ≤ (r₁.pos + len) % 2 ^ 64
            · rw [if_pos h2]
              simp only []
              have hb1 : r₁.buf = r.buf := hvb.2.2
              have hv1 : r.pos ≤ r₁.pos := hvb.1
              have hl1 : r₁.buf.length = r.buf.length := by rw [hb1]
              exact ⟨by omega, by omega, hb1⟩
            · rw [if_neg h2]
              exact ⟨hvb.1, hvb.2.1, hvb.2.2⟩
        | err e =>
          exact ⟨hvb.1, hvb.2.1, hvb.2.2⟩
        | fatal =>
          exact ⟨hvb.1, hvb.2.1, hvb.2.2⟩

/-- Witness for C10: reading a length-5 bytes field from a 2-byte buffer
fails with `UnexpectedEof`, leaving the cursor after the length varint. -/
theorem reader_failure_positions_witness :
    PbReader.next_varint ⟨[0x05, 0xaa], 0⟩ = (.ok 5, ⟨[0x05, 0xaa], 1⟩) ∧
    (⟨[0x05, 0xaa], 1⟩ : PbReader).buf.length <
      (⟨[0x05, 0xaa], 1⟩ : PbReader).pos + 5 ∧
    (PbReader.next_bytes ⟨[0x05, 0xaa], 0⟩ = (.err .UnexpectedEof, ⟨[0x05, 0xaa], 1⟩) ∧
      (⟨[0x05, 0xaa], 0⟩ : PbReader).pos < (⟨[0x05, 0xaa], 1⟩ : PbReader).pos) := by
  have h1 : PbReader.next_varint ⟨[0x05, 0xaa], 0⟩ = (.ok 5, ⟨[0x05, 0xaa], 1⟩) := by decide
  exact ⟨h1, by decide,
    reader_failure_positions.1 ⟨[0x05, 0xaa], 0⟩ ⟨[0x05, 0xaa], 1⟩ 5 h1 (by decide) (by decide)⟩

/-! ### Claim C4: the 10-byte varint window -/

/-- C4: a varint whose first nine bytes carry the continuation bit and whose
tenth byte terminates decodes successfully (the last shift is 63, which
just fits); ten continuation bytes followed by an eleventh byte fail with
`VarintOverflow` after consuming eleven bytes; ten continuation bytes at
the very end of the buffer fail with `UnexpectedEof`, not
`VarintOverflow`. -/
theorem varint_ten_byte_window :
    (∀ b0 b1 b2 b3 b4 b5 b6 b7 b8 b9 : Nat, ∀ rest : List Nat,
      ¬ b0 &&& 0x80 = 0 → ¬ b1 &&& 0x80 = 0 → ¬ b2 &&& 0x80 = 0 → ¬ b3 &&& 0x80 = 0 →
      ¬ b4 &&& 0x80 = 0 → ¬ b5 &&& 0x80 = 0 → ¬ b6 &&& 0x80 = 0 → ¬ b7 &&& 0x80 = 0 →
      ¬ b8 &&& 0x80 = 0 → b9 &&& 0x80 = 0 →
      ∃ v, PbReader.next_varint ⟨[b0, b1, b2, b3, b4, b5, b6, b7, b8, b9] ++ rest, 0⟩ =
        (.ok v, ⟨[b0, b1, b2, b3, b4, b5, b6, b7, b8, b9] ++ rest, 10⟩)) ∧
    (∀ b0 b1 b2 b3 b4 b5 b6 b7 b8 b9 b10 : Nat, ∀ rest : List Nat,
      ¬ b0 &&& 0x80 = 0 → ¬ b1 &&& 0x80 = 0 → ¬ b2 &&& 0x80 = 0 → ¬ b3 &&& 0x80 = 0 →
      ¬ b4 &&& 0x80 = 0 → ¬ b5 &&& 0x80 = 0 → ¬ b6 &&& 0x80 = 0 → ¬ b7 &&& 0x80 = 0 →
      ¬ b8 &&& 0x80 = 0 → ¬ b9 &&& 0x80 = 0 →
      PbReader.next_varint ⟨[b0, b1, b2, b3, b4, b5, b6, b7, b8, b9, b10] ++ rest, 0⟩ =
        (.err .VarintOverflow, ⟨[b0, b1, b2, b3, b4, b5, b6, b7, b8, b9, b10] ++ rest, 11⟩)) ∧
    (∀ b0 b1 b2 b3 b4 b5 b6 b7 b8 b9 : Nat,
      ¬ b0 &&& 0x80 = 0 → ¬ b1 &&& 0x80 = 0 → ¬ b2 &&& 0x80 = 0 → ¬ b3 &&& 0x80 = 0 →
      ¬ b4 &&& 0x80 = 0 → ¬ b5 &&& 0x80 = 0 → ¬ b6 &&& 0x80 = 0 → ¬ b7 &&& 0x80 = 0 →
      ¬ b8 &&& 0x80 = 0 → ¬ b9 &&& 0x80 = 0 →
      PbReader.next_varint ⟨[b0, b1, b2, b3, b4, b5, b6, b7, b8, b9], 0⟩ =
        (.err .UnexpectedEof, ⟨[b0, b1, b2, b3, b4, b5, b6, b7, b8, b9], 10⟩)) := by
  refine ⟨?_, ?_, ?_⟩
  · intro b0 b1 b2 b3 b4 b5 b6 b7 b8 b9 rest h0 h1 h2 h3 h4 h5 h6 h7 h8 h9
    have hl : ∃ v, varintLoop ([b0, b1, b2, b3, b4, b5, b6, b7, b8, b9] ++ rest) 0 0 =
        (.ok v, 10) := by
      simp only [List.cons_append, List.nil_append]
      rw [varintLoop_cont_step b0 _ _ _ h0 (by norm_num)]
      rw [varintLoop_cont_step b1 _ _ _ h1 (by norm_num)]
      rw [varintLoop_cont_step b2 _ _ _ h2 (by norm_num)]
      rw [varintLoop_cont_step b3 _ _ _ h3 (by norm_num)]
      rw [varintLoop_cont_step b4 _ _ _ h4 (by norm_num)]
      rw [varintLoop_cont_step b5 _ _ _ h5 (by norm_num)]
      rw [varintLoop_cont_step b6 _ _ _ h6 (by norm_num)]
      rw [varintLoop_cont_step b7 _ _ _ h7 (by norm_num)]
      rw [varintLoop_cont_step b8 _ _ _ h8 (by norm_num)]
      rw [varintLoop_last_step b9 _ _ _ h9 (by norm_num)]
      exact ⟨_, rfl⟩
    obtain ⟨v, hv⟩ := hl
    refine ⟨v, ?_⟩
    rw [next_varint_eq]
    simp only [List.drop_zero]
    rw [hv]
    simp
  · intro b0 b1 b2 b3 b4 b5 b6 b7 b8 b9 b10 rest h0 h1 h2 h3 h4 h5 h6 h7 h8 h9
    have hv : varintLoop ([b0, b1, b2, b3, b4, b5, b6, b7, b8, b9, b10] ++ rest) 0 0 =
        (.err .VarintOverflow, 11) := by
      simp only [List.cons_append, List.nil_append]
      rw [varintLoop_cont_step b0 _ _ _ h0 (by norm_num)]
      rw [varintLoop_cont_step b1 _ _ _ h1 (by norm_num)]
      rw [varintLoop_cont_step b2 _ _ _ h2 (by norm_num)]
      rw [varintLoop_cont_step b3 _ _ _ h3 (by norm_num)]
      rw [varintLoop_cont_step b4 _ _ _ h4 (by norm_num)]
      rw [varintLoop_cont_step b5 _ _ _ h5 (by norm_num)]
      rw [varintLoop_cont_step b6 _ _ _ h6 (by norm_num)]
      rw [varintLoop_cont_step b7 _ _ _ h7 (by norm_num)]
      rw [varintLoop_cont_step b8 _ _ _ h8 (by norm_num)]
      rw [varintLoop_cont_step b9 _ _ _ h9 (by norm_num)]
      rw [varintLoop_overflow_step b10 _ _ _ (by norm_num)]
    rw [next_varint_eq]
    simp only [List.drop_zero]
    rw [hv]
    simp
  · intro b0 b1 b2 b3 b4 b5 b6 b7 b8 b9 h0 h1 h2 h3 h4 h5 h6 h7 h8 h9
    have hc : ∀ b ∈ [b0, b1, b2, b3, b4, b5, b6, b7, b8, b9], ¬ b &&& 0x80 = 0 := by
      intro b hb
      simp only [List.mem_cons, List.not_mem_nil, or_false] at hb
      rcases hb with rfl | rfl | rfl | rfl | rfl | rfl | rfl | rfl | rfl | rfl <;>
        assumption
    have hv : varintLoop [b0, b1, b2, b3, b4, b5, b6, b7, b8, b9] 0 0 =
        (.err .UnexpectedEof, 10) :=
      varintLoop_all_cont _ 0 0 hc (by simp)
    rw [next_varint_eq]
    simp only [List.drop_zero]
    rw [hv]
    simp

/-- Witness for C4: nine 0xFF bytes with a terminating 0x01 decode; ten
0x80 bytes with an eleventh byte overflow; ten 0x80 bytes at the buffer
end are a truncation. -/
theorem varint_ten_byte_window_witness :
    (∃ v, PbReader.next_varint
        ⟨[0xff, 0xff, 0xff, 0xff, 0xff, 0xff, 0xff, 0xff, 0xff, 0x01] ++ [], 0⟩ =
      (.ok v, ⟨[0xff, 0xff, 0xff, 0xff, 0xff, 0xff, 0xff, 0xff, 0xff, 0x01] ++ [], 10⟩)) ∧
    PbReader.next_varint
        ⟨[0x80, 0x80, 0x80, 0x80, 0x80, 0x80, 0x80, 0x80, 0x80, 0x80, 0x00] ++ [], 0⟩ =
      (.err .VarintOverflow,
        ⟨[0x80, 0x80, 0x80, 0x80, 0x80, 0x80, 0x80, 0x80, 0x80, 0x80, 0x00] ++ [], 11⟩) ∧
    PbReader.next_varint ⟨[0x80, 0x80, 0x80, 0x80, 0x80, 0x80, 0x80, 0x80, 0x80, 0x80], 0⟩ =
      (.err .UnexpectedEof,
        ⟨[0x80, 0x80, 0x80, 0x80, 0x80, 0x80, 0x80, 0x80, 0x80, 0x80], 10⟩) :=
  ⟨varint_ten_byte_window.1 0xff 0xff 0xff 0xff 0xff 0xff 0xff 0xff 0xff 0x01 []
      (by decide) (by decide) (by decide) (by decide) (by decide) (by decide) (by decide)
      (by decide) (by decide) (by decide),
    varint_ten_byte_window.2.1 0x80 0x80 0x80 0x80 0x80 0x80 0x80 0x80 0x80 0x80 0x00 []
      (by decide) (by decide) (by decide) (by decide) (by decide) (by decide) (by decide)
      (by decide) (by decide) (by decide),
    varint_ten_byte_window.2.2 0x80 0x80 0x80 0x80 0x80 0x80 0x80 0x80 0x80 0x80
      (by decide) (by decide) (by decide) (by decide) (by decide) (by decide) (by decide)
      (by decide) (by decide) (by decide)⟩

end Picopb
